import Mathlib

/-!
Verification development for the data-preparation script `src/data/preparations.py`.

The script has two independent parts:

1. a dataset partitioner/exporter: each label table is split into
   train/validation/test partitions with `sklearn.model_selection.train_test_split`
   (`test_size=0.2` then `test_size=0.25`, both with `random_state=1`) and each
   partition is exported as csv and as line-delimited json records
   (`create_jsonl_data`);

2. a checkpoint key remapper: the legacy ChexNet checkpoint's `state_dict` keys
   are renamed with the regex
   `^(.*denselayer\d+\.(?:norm|relu|conv))\.((?:[12])\.(?:weight|bias|running_mean|running_var))$`
   (`new_key = group1 + group2`), then unconditionally truncated by 7 characters
   (`new_key[7:]`, dropping the DataParallel prefix "module."), the tensor is
   re-inserted under the new key and the old entry is deleted; finally the
   `densenet121` submodule of the freshly built `DenseNet121` wrapper is saved.

Python dicts are modelled as insertion-ordered association lists, strings as
`List Char`, tensors as values of an abstract type.
-/

/-! ### Association-list model of a Python `dict` (insertion ordered) -/

/-- A Python `dict` as an insertion-ordered association list. -/
abbrev Dict (α β : Type) : Type := List (α × β)

/-- Lookup `d[k]` as an `Option` (first entry with key `k`). -/
def dlookup [DecidableEq α] (k : α) : Dict α β → Option β
  | [] => none
  | (k', v) :: d => if k' = k then some v else dlookup k d

/-- Assignment `d[k] = v`: replace the value in place if `k` is present, else append a new
entry at the end (Python dicts keep insertion order). -/
def dinsert [DecidableEq α] (k : α) (v : β) : Dict α β → Dict α β
  | [] => [(k, v)]
  | (k', v') :: d => if k' = k then (k, v) :: d else (k', v') :: dinsert k v d

/-- Deletion `del d[k]`: remove the entry with key `k` (all occurrences; a well-formed
dict has at most one). -/
def ddel [DecidableEq α] (k : α) : Dict α β → Dict α β
  | [] => []
  | (k', v') :: d => if k' = k then ddel k d else (k', v') :: ddel k d

/-- Snapshot `list(d.keys())`: the key list taken before the remapping loop mutates
the dict. -/
def dkeys (d : Dict α β) : List α := d.map Prod.fst

/-! ### The checkpoint key transform

`pattern = re.compile(r'^(.*denselayer\d+\.(?:norm|relu|conv))\.((?:[12])\.(?:weight|bias|running_mean|running_var))$')`

Both ends of the pattern are anchored and none of the four parameter suffixes is
a suffix of another, so a key matches iff it decomposes uniquely as
`g1 ++ "." ++ d ++ "." ++ suf` with `d` in `{1,2}`, `suf` one of the four
suffixes, and `g1` ending in `denselayer<digits>.<norm|relu|conv>`; the groups
are `g1` and `d ++ "." ++ suf`. -/

/-- Consume `s` as a leading segment of `l`: `chopRev l s = some r` iff
`l = s ++ r`. -/
def chopRev : List Char → List Char → Option (List Char)
  | l, [] => some l
  | [], _ :: _ => none
  | c :: l, s0 :: s => if c = s0 then chopRev l s else none

/-- Remove `s` from the end of `l`: `dropTail l s = some r` iff `l = r ++ s`. -/
def dropTail (l s : List Char) : Option (List Char) :=
  (chopRev l.reverse s.reverse).map List.reverse

/-- The four parameter suffixes of the regex alternation. -/
def paramSuffixes : List (List Char) :=
  ["weight".data, "bias".data, "running_mean".data, "running_var".data]

/-- The three sub-module names of the regex alternation. -/
def unitNames : List (List Char) :=
  ["norm".data, "relu".data, "conv".data]

/-- Does `a` match `.*denselayer\d+\.(?:norm|relu|conv)` (the whole of group 1)?
`a` must end with `denselayer`, a nonempty digit run, a dot and a unit name. -/
def group1Ok (a : List Char) : Bool :=
  unitNames.any fun u =>
    match dropTail a u with
    | none => false
    | some a1 =>
      match dropTail a1 ['.'] with
      | none => false
      | some a2 =>
        let r := a2.reverse
        let ds := r.takeWhile Char.isDigit
        let r3 := r.dropWhile Char.isDigit
        !ds.isEmpty && (chopRev r3 "denselayer".data.reverse).isSome

/-- Try to match the whole regex assuming the final alternative is `suf`:
the key must be `a ++ "." ++ d ++ "." ++ suf` with `d ∈ {1,2}` and `group1Ok a`;
the returned groups are `(a, d ++ "." ++ suf)`. -/
def matchWithSuffix (key suf : List Char) : Option (List Char × List Char) :=
  match dropTail key suf with
  | none => none
  | some r1 =>
    match dropTail r1 ['.'] with
    | none => none
    | some r2 =>
      match dropTail r2 ['.', '1'] with
      | some a => if group1Ok a then some (a, '1' :: '.' :: suf) else none
      | none =>
        match dropTail r2 ['.', '2'] with
        | some a => if group1Ok a then some (a, '2' :: '.' :: suf) else none
        | none => none

/-- Try the suffix alternatives in order (at most one can succeed, since none of
the four suffixes is a suffix of another and the pattern is end-anchored). -/
def firstMatch (key : List Char) : List (List Char) → Option (List Char × List Char)
  | [] => none
  | suf :: rest =>
    match matchWithSuffix key suf with
    | some r => some r
    | none => firstMatch key rest

/-- Model of `pattern.match(key)`, returning the two capture groups on success. -/
def patternMatch (key : List Char) : Option (List Char × List Char) :=
  firstMatch key paramSuffixes

/-- Flag `remove_data_parallel = True` of the script. -/
def remove_data_parallel : Bool := true

/-- Rule 1: `new_key = match.group(1) + match.group(2) if match else key`. -/
def renameKey (key : List Char) : List Char :=
  match patternMatch key with
  | some (g1, g2) => g1 ++ g2
  | none => key

/-- The whole per-key transform:
`new_key = match.group(1) + match.group(2) if match else key` followed by
`new_key = new_key[7:] if remove_data_parallel else new_key`. -/
def transformKey (key : List Char) : List Char :=
  let nk := renameKey key
  if remove_data_parallel then nk.drop 7 else nk

/-- Wrapper applying `transformKey` to a `String`, for readable statements. -/
def transformKeyStr (s : String) : String := String.mk (transformKey s.data)

/-- One iteration of the remapping loop:
```
match = pattern.match(key)
new_key = match.group(1) + match.group(2) if match else key
new_key = new_key[7:] if remove_data_parallel else new_key
state_dict[new_key] = state_dict[key]
if match or remove_data_parallel:
    del state_dict[key]
```
A missing `key` would raise `KeyError` in Python; it cannot occur when the loop
runs over a snapshot of the dict's own (distinct) keys, and the model returns
the dict unchanged in that unreachable case. -/
def remapStep (d : Dict (List Char) V) (key : List Char) : Dict (List Char) V :=
  match dlookup key d with
  | none => d
  | some v =>
    let m := patternMatch key
    let new_key := match m with | some (g1, g2) => g1 ++ g2 | none => key
    let new_key := if remove_data_parallel then new_key.drop 7 else new_key
    let d1 := dinsert new_key v d
    if m.isSome || remove_data_parallel then ddel key d1 else d1

/-- Loop `for key in list(state_dict.keys()): ...` — the whole remapping, run on
a snapshot of the keys taken before mutation. -/
def remapStateDict (d : Dict (List Char) V) : Dict (List Char) V :=
  (dkeys d).foldl remapStep d

/-- The mapping the spec claims the loop produces, built from the claim's own
words: `{ transform(k) : v | (k, v) in the original mapping }`, later entries
winning on collisions exactly as in a Python dict comprehension. -/
def remappedComprehension (d : Dict (List Char) V) : Dict (List Char) V :=
  d.foldl (fun acc kv => dinsert (transformKey kv.1) kv.2 acc) []

/-! ### The dataset partitioner

`train, test = train_test_split(df, test_size=0.2, random_state=1)` followed by
`train, val = train_test_split(train, test_size=0.25, random_state=1)`.

`sklearn` draws a seeded pseudo-random permutation of the rows, takes the first
`ceil(test_size * n)` rows of the permutation as the second component and the
rest as the first.  The library's seeded permutation is not part of this
repository; it is modelled as an explicit shuffle function parameter (the same
function for both calls, since both use `random_state=1`), about which the
theorems assume only that it permutes its input. -/

/-- Ceiling `ceil(num/den * n)`: the test-fold size `sklearn` computes for a fractional
`test_size` (`0.2 = 1/5`, `0.25 = 1/4`). -/
def nTestOf (num den n : Nat) : Nat := (num * n + (den - 1)) / den

/-- Model of `train_test_split(l, test_size=num/den, random_state=seed)` with the seeded
permutation abstracted as `sh`; returns `(train, test)`. -/
def train_test_split (sh : List ρ → List ρ) (num den : Nat) (l : List ρ) :
    List ρ × List ρ :=
  let nTest := nTestOf num den l.length
  let p := sh l
  (p.drop nTest, p.take nTest)

/-- The two-stage 60/20/20 split of one dataframe:
`train, test = train_test_split(df, test_size=0.2, random_state=1)`;
`train, val = train_test_split(train, test_size=0.25, random_state=1)`;
returns `(train, val, test)`. -/
def splitPipeline (sh : List ρ → List ρ) (l : List ρ) :
    List ρ × List ρ × List ρ :=
  let tt := train_test_split sh 1 5 l
  let tv := train_test_split sh 1 4 tt.1
  (tv.1, tv.2, tt.2)

/-! ### The jsonl export

`df.to_json(orient="index")` turns a partition into a mapping from the row's
original dataframe index to the row's column dict, in row order (the index of a
freshly read csv is `0..n-1`, and `train_test_split` keeps index values).  The
numeric indices are modelled as `Nat`.  `create_jsonl_data` then iterates the
mapping, sets `data_obj['id'] = idx`, copies the row's fields into `data_obj`
and writes one line per row — `data_obj` is created once, outside the loop. -/

/-- Just enough of a JSON value for the label tables. -/
inductive JVal where
  | nat : Nat → JVal
  | str : String → JVal
deriving DecidableEq

/-- Inner loop `for key, value in data_dict.items(): data_obj[key] = value`. -/
def rowInsert (o : Dict String JVal) (r : Dict String JVal) : Dict String JVal :=
  r.foldl (fun acc kv => dinsert kv.1 kv.2 acc) o

/-- The loop body of `create_jsonl_data`, carrying the single `data_obj` that is
created once before the loop; returns the list of written lines. -/
def jsonlLoop (data_obj : Dict String JVal) :
    List (Nat × Dict String JVal) → List (Dict String JVal)
  | [] => []
  | e :: rest =>
    let obj := rowInsert (dinsert "id" (JVal.nat e.1) data_obj) e.2
    obj :: jsonlLoop obj rest

/-- Model of `create_jsonl_data(data_dir, jsonl_filename, json_dict)`: the sequence of
json objects written to the file, one per row of `json_dict`. -/
def create_jsonl_data (json_dict : List (Nat × Dict String JVal)) :
    List (Dict String JVal) :=
  jsonlLoop [] json_dict

/-- The value a row dict assigns to `q`, last occurrence winning (what copying
the row's items into `data_obj` leaves behind). -/
def rlast (q : String) : Dict String JVal → Option JVal
  | [] => none
  | kv :: rest =>
    match rlast q rest with
    | some v => some v
    | none => if kv.1 = q then some kv.2 else none

/-- The value the shared `data_obj` holds for field `q ≠ "id"` after processing
the rows of `jd`: the value from the latest row that writes `q`, if any. -/
def lastVal (q : String) : List (Nat × Dict String JVal) → Option JVal
  | [] => none
  | e :: rest =>
    match lastVal q rest with
    | some v => some v
    | none => rlast q e.2

/-! ### The model that gets saved

`DenseNet121.__init__` builds `torchvision.models.densenet121(pretrained=True)`
(whose stock classifier is `Linear(1024, 1000)`), then replaces its
`classifier` attribute by `nn.Sequential(nn.Linear(num_ftrs, out_size),
nn.Sigmoid())`.  `torch.save(model_ft.densenet121, ...)` serializes that
submodule — weights and classifier together.  Tensors are abstracted to an
arbitrary type `V`. -/

/-- The shape of the `classifier` attribute of the densenet backbone. -/
inductive HeadKind where
  | linearOnly : Nat → Nat → HeadKind
  | linearSigmoid : Nat → Nat → HeadKind
deriving DecidableEq

/-- In-feature count of a classifier head (`.in_features` of its linear layer). -/
def headInFeatures : HeadKind → Nat
  | HeadKind.linearOnly inF _ => inF
  | HeadKind.linearSigmoid inF _ => inF

/-- The `torchvision` densenet121 module: its parameters and its `classifier`
attribute. -/
structure Backbone (V : Type) where
  weights : Dict (List Char) V
  classifier : HeadKind

/-- Model of `torchvision.models.densenet121(pretrained=True)` with pretrained
parameters `w`; the stock classifier is `Linear(1024, 1000)`. -/
def densenet121_pretrained (w : Dict (List Char) V) : Backbone V :=
  { weights := w, classifier := HeadKind.linearOnly 1024 1000 }

/-- The wrapper class `DenseNet121(nn.Module)` with its single submodule. -/
structure DenseNet121 (V : Type) where
  densenet121 : Backbone V

/-- Constructor `DenseNet121.__init__(self, out_size)`: build the pretrained backbone, read
`num_ftrs = self.densenet121.classifier.in_features`, and replace the
classifier by `nn.Sequential(nn.Linear(num_ftrs, out_size), nn.Sigmoid())`. -/
def denseNet121Init (w : Dict (List Char) V) (out_size : Nat) : DenseNet121 V :=
  let base := densenet121_pretrained w
  { densenet121 :=
      { base with
        classifier := HeadKind.linearSigmoid (headInFeatures base.classifier) out_size } }

/-- Constant `N_CLASSES = 14` of the script. -/
def N_CLASSES : Nat := 14

/-- Model of `model_ft.load_state_dict(state_dict)`: replace the wrapper's parameters by
the given mapping (a key mismatch raises in PyTorch; the claims below only use
the checkpoint-absent branch, where no load happens). -/
def load_state_dict (m : DenseNet121 V) (sd : Dict (List Char) V) : DenseNet121 V :=
  { m with densenet121 := { m.densenet121 with weights := sd } }

/-- The checkpoint half of the script, from `model_ft = DenseNet121(N_CLASSES)`
to the final save.  `ckpt` is `some state_dict` when `os.path.isfile(CKPT_PATH)`
and the file holds that `state_dict`, `none` otherwise.  Returns the printed
messages and the module written to `saved_chexnet.pt`
(`torch.save(model_ft.densenet121, ...)`, executed on both branches). -/
def scriptRun (w : Dict (List Char) V) (ckpt : Option (Dict (List Char) V)) :
    List String × Backbone V :=
  let model_ft := denseNet121Init w N_CLASSES
  let phase :=
    match ckpt with
    | some checkpoint =>
      (["=> loading checkpoint", "=> loaded checkpoint"],
        load_state_dict model_ft (remapStateDict checkpoint))
    | none => (["=> no checkpoint found"], model_ft)
  (phase.1 ++ ["Model saved."], phase.2.densenet121)

/-! ### Dict lemmas -/

variable {α β : Type} [DecidableEq α]

theorem dlookup_dinsert (k q : α) (v : β) (d : Dict α β) :
    dlookup q (dinsert k v d) = if k = q then some v else dlookup q d := by
  induction d with
  | nil => simp [dinsert, dlookup]
  | cons kv d ih =>
    obtain ⟨k', v'⟩ := kv
    by_cases hk : k' = k
    · subst hk
      by_cases hq : k' = q
      · simp [dinsert, dlookup, hq]
      · simp [dinsert, dlookup, hq]
    · by_cases hq : k' = q
      · subst hq
        have hne : ¬ k = k' := fun h => hk h.symm
        simp [dinsert, dlookup, hk, hne]
      · simp [dinsert, dlookup, hk, hq, ih]

theorem dlookup_ddel (k q : α) (d : Dict α β) :
    dlookup q (ddel k d) = if k = q then none else dlookup q d := by
  induction d with
  | nil => simp [ddel, dlookup]
  | cons kv d ih =>
    obtain ⟨k', v'⟩ := kv
    by_cases hk : k' = k
    · subst hk
      by_cases hq : k' = q
      · subst hq
        simp [ddel, dlookup, ih]
      · simp [ddel, dlookup, ih, hq]
    · by_cases hq : k' = q
      · subst hq
        have hne : ¬ k = k' := fun h => hk h.symm
        simp [ddel, dlookup, hk, hne]
      · simp [ddel, dlookup, hk, hq, ih]

theorem dlookup_eq_none_iff (q : α) (d : Dict α β) :
    dlookup q d = none ↔ q ∉ dkeys d := by
  induction d with
  | nil => simp [dlookup, dkeys]
  | cons kv d ih =>
    obtain ⟨k', v'⟩ := kv
    by_cases hq : k' = q
    · subst hq
      simp [dlookup, dkeys]
    · simp [dlookup, hq, dkeys, ih, Ne.symm hq]

theorem dinsert_append_of_not_mem (k : α) (v : β) (A B : Dict α β)
    (h : k ∉ dkeys A) : dinsert k v (A ++ B) = A ++ dinsert k v B := by
  induction A with
  | nil => simp
  | cons kv A ih =>
    obtain ⟨k', v'⟩ := kv
    simp only [dkeys, List.map_cons, List.mem_cons] at h
    push_neg at h
    have hne : ¬ k' = k := fun hh => h.1 hh.symm
    simp only [List.cons_append, dinsert, if_neg hne, List.append_eq]
    rw [ih h.2]

theorem ddel_append (k : α) (A B : Dict α β) :
    ddel k (A ++ B) = ddel k A ++ ddel k B := by
  induction A with
  | nil => simp [ddel]
  | cons kv A ih =>
    obtain ⟨k', v'⟩ := kv
    by_cases hk : k' = k
    · simp [ddel, hk, ih]
    · simp [ddel, hk, ih]

theorem ddel_of_not_mem (k : α) (d : Dict α β) (h : k ∉ dkeys d) :
    ddel k d = d := by
  induction d with
  | nil => simp [ddel]
  | cons kv d ih =>
    obtain ⟨k', v'⟩ := kv
    simp only [dkeys, List.map_cons, List.mem_cons] at h
    push_neg at h
    have hne : ¬ k' = k := fun hh => h.1 hh.symm
    simp only [ddel, if_neg hne]
    rw [ih h.2]

theorem dkeys_cons (kv : α × β) (d : Dict α β) : dkeys (kv :: d) = kv.1 :: dkeys d := rfl

theorem mem_dkeys_dinsert (k q : α) (v : β) (d : Dict α β)
    (h : q ∈ dkeys (dinsert k v d)) : q = k ∨ q ∈ dkeys d := by
  induction d with
  | nil =>
    simp [dinsert, dkeys] at h
    exact Or.inl h
  | cons kv d ih =>
    obtain ⟨k', v'⟩ := kv
    by_cases hk : k' = k
    · subst hk
      rw [show dinsert k' v ((k', v') :: d) = (k', v) :: d from by simp [dinsert],
        dkeys_cons] at h
      rw [dkeys_cons, List.mem_cons]
      exact (List.mem_cons.mp h).imp id Or.inr
    · rw [show dinsert k v ((k', v') :: d) = (k', v') :: dinsert k v d from by
        simp [dinsert, hk], dkeys_cons] at h
      rw [dkeys_cons, List.mem_cons]
      rcases List.mem_cons.mp h with h | h
      · exact Or.inr (Or.inl h)
      · exact (ih h).imp id Or.inr

/-! ### The remapping loop as a comprehension -/

theorem remapStep_eq {V : Type} (d : Dict (List Char) V) (key : List Char) (v : V)
    (h : dlookup key d = some v) :
    remapStep d key = ddel key (dinsert (transformKey key) v d) := by
  simp only [remapStep, h, remove_data_parallel, Bool.or_true, if_true,
    transformKey, renameKey]

/-- The loop with snapshot `dkeys todo` run on `todo ++ E` (with `E` the already
re-inserted entries) builds the comprehension fold, provided the transformed
names avoid all keys still to be processed. -/
theorem remapLoop_comprehension {V : Type} (todo : Dict (List Char) V)
    (E : Dict (List Char) V)
    (hnd : (dkeys todo).Nodup)
    (ht : ∀ k ∈ dkeys todo, transformKey k ∉ dkeys todo)
    (hE : ∀ k ∈ dkeys todo, k ∉ dkeys E) :
    (dkeys todo).foldl remapStep (todo ++ E) =
      todo.foldl (fun acc kv => dinsert (transformKey kv.1) kv.2 acc) E := by
  induction todo generalizing E with
  | nil => simp [dkeys]
  | cons kv rest ih =>
    obtain ⟨k0, v0⟩ := kv
    have hk0_mem : k0 ∈ dkeys ((k0, v0) :: rest) := by
      rw [dkeys_cons]; exact List.mem_cons_self _ _
    have ht0 : transformKey k0 ∉ dkeys ((k0, v0) :: rest) := ht k0 hk0_mem
    have hk0E : k0 ∉ dkeys E := hE k0 hk0_mem
    have hnd_cons := hnd
    rw [dkeys_cons, List.nodup_cons] at hnd_cons
    have hk0rest : k0 ∉ dkeys rest := hnd_cons.1
    have hnd' : (dkeys rest).Nodup := hnd_cons.2
    have htk0_ne : ¬ transformKey k0 = k0 := by
      intro hh
      exact ht0 (by rw [hh]; exact hk0_mem)
    have htk0_rest : transformKey k0 ∉ dkeys rest := by
      intro hh
      exact ht0 (by rw [dkeys_cons]; exact List.mem_cons_of_mem _ hh)
    have hlook : dlookup k0 ((k0, v0) :: rest ++ E) = some v0 := by
      simp [dlookup]
    have hins : dinsert (transformKey k0) v0 (((k0, v0) :: rest) ++ E)
        = (k0, v0) :: (rest ++ dinsert (transformKey k0) v0 E) := by
      rw [dinsert_append_of_not_mem _ _ _ _ ht0]
      rfl
    have hnotE' : k0 ∉ dkeys (dinsert (transformKey k0) v0 E) := by
      intro hh
      rcases mem_dkeys_dinsert _ _ _ _ hh with hh | hh
      · exact htk0_ne hh.symm
      · exact hk0E hh
    have hstep : remapStep ((k0, v0) :: rest ++ E) k0
        = rest ++ dinsert (transformKey k0) v0 E := by
      rw [remapStep_eq _ _ _ hlook]
      rw [show ((k0, v0) :: rest ++ E) = (((k0, v0) :: rest) ++ E) from rfl, hins]
      rw [show ddel k0 ((k0, v0) :: (rest ++ dinsert (transformKey k0) v0 E))
          = ddel k0 (rest ++ dinsert (transformKey k0) v0 E) from by simp [ddel]]
      rw [ddel_append, ddel_of_not_mem _ _ hk0rest, ddel_of_not_mem _ _ hnotE']
    rw [dkeys_cons, List.foldl_cons, hstep]
    rw [ih (dinsert (transformKey k0) v0 E) hnd'
      (fun k hk => fun hmem => ht k (by rw [dkeys_cons]; exact List.mem_cons_of_mem _ hk)
        (by rw [dkeys_cons]; exact List.mem_cons_of_mem _ hmem))
      (fun k hk => fun hmem => by
        rcases mem_dkeys_dinsert _ _ _ _ hmem with hh | hh
        · exact htk0_rest (hh ▸ hk)
        · exact hE k (by rw [dkeys_cons]; exact List.mem_cons_of_mem _ hk) hh)]
    rfl

/-- C2, counterexample: on the mapping `{"": v}` — a key whose transformed name
equals the key itself — the loop inserts the tensor back under the same key and
then deletes it, so the entry vanishes, while the claimed comprehension
`{transform(k): v}` keeps it.  The claim quantifies over every input key set
including such fixed points, so it fails here. -/
theorem c2_remap_counterexample :
    dlookup ([] : List Char) (remapStateDict [(([] : List Char), (0 : Nat))]) = none
    ∧ dlookup ([] : List Char)
        (remappedComprehension [(([] : List Char), (0 : Nat))]) = some 0 := by
  constructor
  · rfl
  · rfl

/-- C2 (amended): after the remapping loop finishes, the state mapping equals
exactly the comprehension `{ transform(k) : v | (k, v) in the original
mapping }` — with later entries winning on collisions among transformed names,
as in a Python dict comprehension — for every input mapping with distinct keys
in which no key's transformed name lies in the original key set (this proviso
excludes fixed-point keys and transformed names that hit another original key,
for which the loop loses or misattributes entries). -/
theorem c2_remap_equals_comprehension {V : Type} (d : Dict (List Char) V)
    (hnd : (dkeys d).Nodup)
    (ht : ∀ k ∈ dkeys d, transformKey k ∉ dkeys d) :
    remapStateDict d = remappedComprehension d := by
  have h := remapLoop_comprehension d [] hnd ht (fun k _ => by simp [dkeys])
  rw [remapStateDict, remappedComprehension, ← h, List.append_nil]

theorem c2_remap_equals_comprehension_witness :
    remapStateDict [(("module.features.denselayer1.norm.1.weight".data : List Char), (0 : Nat)),
        ("module.classifier.0.weight".data, 1)]
      = remappedComprehension [(("module.features.denselayer1.norm.1.weight".data : List Char), (0 : Nat)),
        ("module.classifier.0.weight".data, 1)] :=
  c2_remap_equals_comprehension _ (by decide) (by decide)

/-- C3: the per-key transform sends the matching key
`"module.features.denselayer1.norm.1.weight"` to
`"features.denselayer1.norm1.weight"` and the non-matching key
`"module.classifier.0.weight"` to `"classifier.0.weight"`; rule 1 runs first
(producing `"module.features.denselayer1.norm1.weight"` for the former) and the
7-character strip applies to the already-renamed key. -/
theorem c3_concrete_transforms :
    transformKeyStr "module.features.denselayer1.norm.1.weight"
        = "features.denselayer1.norm1.weight"
    ∧ transformKeyStr "module.classifier.0.weight" = "classifier.0.weight"
    ∧ String.mk (renameKey ("module.features.denselayer1.norm.1.weight").data)
        = "module.features.denselayer1.norm1.weight"
    ∧ transformKey ("module.features.denselayer1.norm.1.weight").data
        = (renameKey ("module.features.denselayer1.norm.1.weight").data).drop 7 := by
  refine ⟨?_, ?_, ?_, ?_⟩
  · rfl
  · rfl
  · rfl
  · rfl

/-! ### Soundness of the pattern matcher (the matched key decomposes) -/

theorem chopRev_sound (s : List Char) :
    ∀ l c : List Char, chopRev l s = some c → l = s ++ c := by
  induction s with
  | nil =>
    intro l c h
    simp [chopRev] at h
    simp [h]
  | cons s0 s ih =>
    intro l c h
    cases l with
    | nil => simp [chopRev] at h
    | cons c0 l =>
      by_cases hc : c0 = s0
      · subst hc
        simp only [chopRev, if_pos rfl] at h
        rw [List.cons_append, ih l c h]
      · simp [chopRev, hc] at h

theorem dropTail_sound (l s r : List Char) (h : dropTail l s = some r) :
    l = r ++ s := by
  unfold dropTail at h
  rcases Option.map_eq_some'.mp h with ⟨c, hc, hr⟩
  have h1 : l.reverse = s.reverse ++ c := chopRev_sound s.reverse l.reverse c hc
  have h2 : l = (s.reverse ++ c).reverse := by
    rw [← h1, List.reverse_reverse]
  rw [h2, List.reverse_append, List.reverse_reverse, hr]

theorem matchWithSuffix_sound (key suf g1 g2 : List Char)
    (h : matchWithSuffix key suf = some (g1, g2)) : key = g1 ++ '.' :: g2 := by
  unfold matchWithSuffix at h
  split at h
  · exact absurd h (by simp)
  next r1 h1 =>
    split at h
    · exact absurd h (by simp)
    next r2 h2 =>
      split at h
      next a h3 =>
        split at h
        · simp only [Option.some.injEq, Prod.mk.injEq] at h
          obtain ⟨ha, hb⟩ := h
          subst ha
          rw [← hb]
          rw [dropTail_sound key suf r1 h1, dropTail_sound r1 ['.'] r2 h2,
            dropTail_sound r2 ['.', '1'] a h3]
          simp
        · exact absurd h (by simp)
      next h3 =>
        split at h
        next a h4 =>
          split at h
          · simp only [Option.some.injEq, Prod.mk.injEq] at h
            obtain ⟨ha, hb⟩ := h
            subst ha
            rw [← hb]
            rw [dropTail_sound key suf r1 h1, dropTail_sound r1 ['.'] r2 h2,
              dropTail_sound r2 ['.', '2'] a h4]
            simp
          · exact absurd h (by simp)
        next h4 =>
          exact absurd h (by simp)

theorem firstMatch_sound (key g1 g2 : List Char) :
    ∀ sufs : List (List Char), firstMatch key sufs = some (g1, g2) →
      ∃ suf ∈ sufs, matchWithSuffix key suf = some (g1, g2) := by
  intro sufs
  induction sufs with
  | nil => intro h; simp [firstMatch] at h
  | cons suf rest ih =>
    intro h
    unfold firstMatch at h
    split at h
    next r hm =>
      exact ⟨suf, List.mem_cons_self _ _, by rw [hm]; exact h⟩
    next hm =>
      obtain ⟨s, hs, hs2⟩ := ih h
      exact ⟨s, List.mem_cons_of_mem _ hs, hs2⟩

theorem patternMatch_sound (key g1 g2 : List Char)
    (h : patternMatch key = some (g1, g2)) : key = g1 ++ '.' :: g2 := by
  obtain ⟨suf, _, hm⟩ := firstMatch_sound key g1 g2 paramSuffixes h
  exact matchWithSuffix_sound key suf g1 g2 hm

theorem renameKey_length_le (key : List Char) :
    (renameKey key).length ≤ key.length := by
  unfold renameKey
  cases hm : patternMatch key with
  | none => exact le_refl _
  | some g =>
    obtain ⟨g1, g2⟩ := g
    rw [patternMatch_sound key g1 g2 hm]
    simp

/-- C4, counterexample: remapping the singleton checkpoint
`{"module.classifier.0.weight": v}` once yields key `"classifier.0.weight"`;
remapping the result again strips 7 further characters (key `"ier.0.weight"`),
so applying the whole remapping twice is not the same as applying it once. -/
theorem c4_not_idempotent_counterexample :
    remapStateDict (remapStateDict
        [(("module.classifier.0.weight".data : List Char), (0 : Nat))])
      ≠ remapStateDict [(("module.classifier.0.weight".data : List Char), (0 : Nat))] := by
  decide

/-- C4 (amended): the remapping is not idempotent.  The 7-character strip is
unconditional, so the per-key transform strictly shortens every nonempty key;
in particular a second application of the remapping truncates each (renamed)
key by 7 further characters instead of leaving the mapping unchanged. -/
theorem c4_transform_shortens (key : List Char) (h : key ≠ []) :
    (transformKey key).length < key.length := by
  have h1 : (renameKey key).length ≤ key.length := renameKey_length_le key
  have h2 : transformKey key = (renameKey key).drop 7 := by
    simp [transformKey, remove_data_parallel]
  have h3 : 0 < key.length := List.length_pos.mpr h
  rw [h2, List.length_drop]
  omega

theorem c4_transform_shortens_witness :
    (("classifier.0.weight".data : List Char) ≠ [])
    ∧ (transformKey "classifier.0.weight".data).length
        < ("classifier.0.weight".data : List Char).length :=
  ⟨by decide, c4_transform_shortens ("classifier.0.weight").data (by decide)⟩

/-- C9: the 7-character strip is applied unconditionally after the optional
rule-1 rename — `transformKey` always drops the first 7 characters of the
renamed key — and a key without the `"module."` wrapper, such as
`"classifier.0.weight"`, has its first 7 characters truncated
(`"ier.0.weight"`), while a wrapped key loses exactly the `"module."` piece. -/
theorem c9_strip_unconditional :
    (∀ key : List Char, transformKey key = (renameKey key).drop 7)
    ∧ transformKeyStr "classifier.0.weight" = "ier.0.weight"
    ∧ transformKeyStr "module.classifier.0.weight" = "classifier.0.weight" := by
  refine ⟨fun key => ?_, ?_, ?_⟩
  · simp [transformKey, remove_data_parallel]
  · rfl
  · rfl

/-- C5, counterexample: the module that `torch.save` writes is
`model_ft.densenet121`, whose `classifier` attribute was replaced by
`nn.Sequential(nn.Linear(1024, 14), nn.Sigmoid())` in `DenseNet121.__init__`;
the serialized artifact therefore contains the replaced two-stage head rather
than excluding it. -/
theorem c5_saved_head_counterexample :
    ((scriptRun ([] : Dict (List Char) Nat) none).2).classifier
      = HeadKind.linearSigmoid 1024 14 := rfl

/-- C5 (amended): the serialized output artifact is the model's backbone
submodule including the replaced two-stage classification head (linear
projection to `N_CLASSES` outputs followed by sigmoid), for either branch of
the checkpoint check. -/
theorem c5_saved_backbone_includes_head {V : Type} (w : Dict (List Char) V)
    (ckpt : Option (Dict (List Char) V)) :
    ((scriptRun w ckpt).2).classifier = HeadKind.linearSigmoid 1024 N_CLASSES := by
  cases ckpt with
  | none => rfl
  | some c => rfl

/-- C6: with no file at the checkpoint path, the remapping and load steps are
skipped, the script reports `"=> no checkpoint found"` (and still `"Model
saved."`), and the output artifact is written anyway, holding the freshly
constructed pretrained-backbone model with its parameters untouched by any
remapping. -/
theorem c6_no_checkpoint {V : Type} (w : Dict (List Char) V) :
    scriptRun w none
        = (["=> no checkpoint found", "Model saved."],
          (denseNet121Init w N_CLASSES).densenet121)
    ∧ ((scriptRun w none).2).weights = w :=
  ⟨rfl, rfl⟩

/-! ### The split invariants -/

/-- Helper: the full partition invariant of the two-stage split, shared by the
claims about the partitioner. -/
theorem splitPipeline_spec {ρ : Type} (sh : List ρ → List ρ) (l : List ρ)
    (hsh : ∀ xs : List ρ, (sh xs).Perm xs) (hnd : l.Nodup) :
    ((splitPipeline sh l).1 ++ (splitPipeline sh l).2.1
        ++ (splitPipeline sh l).2.2).Perm l
    ∧ List.Disjoint (splitPipeline sh l).1 (splitPipeline sh l).2.1
    ∧ List.Disjoint (splitPipeline sh l).1 (splitPipeline sh l).2.2
    ∧ List.Disjoint (splitPipeline sh l).2.1 (splitPipeline sh l).2.2
    ∧ (splitPipeline sh l).2.2.length = nTestOf 1 5 l.length
    ∧ (splitPipeline sh l).2.1.length
        = nTestOf 1 4 (l.length - nTestOf 1 5 l.length)
    ∧ (splitPipeline sh l).1.length
        = l.length - nTestOf 1 5 l.length
          - nTestOf 1 4 (l.length - nTestOf 1 5 l.length)
    ∧ (splitPipeline sh l).1.length + (splitPipeline sh l).2.1.length
        + (splitPipeline sh l).2.2.length = l.length := by
  simp only [splitPipeline, train_test_split]
  set nT := nTestOf 1 5 l.length with hnTdef
  set p := sh l with hpdef
  set B := p.drop nT with hBdef
  set q := sh B with hqdef
  set nV := nTestOf 1 4 B.length with hnVdef
  have hp : p.Perm l := hsh l
  have hplen : p.length = l.length := hp.length_eq
  have hpnd : p.Nodup := hp.nodup_iff.mpr hnd
  have hnT_le : nT ≤ l.length := by rw [hnTdef]; unfold nTestOf; omega
  have hnd_app1 : (p.take nT ++ B).Nodup := by
    rw [hBdef, List.take_append_drop]; exact hpnd
  have hdisj1 : List.Disjoint (p.take nT) B := (List.nodup_append.mp hnd_app1).2.2
  have hBnd : B.Nodup := (List.nodup_append.mp hnd_app1).2.1
  have htest_len : (p.take nT).length = nT := by
    rw [List.length_take, hplen]; omega
  have hBlen : B.length = l.length - nT := by
    rw [hBdef, List.length_drop, hplen]
  have hq : q.Perm B := hsh B
  have hqnd : q.Nodup := hq.nodup_iff.mpr hBnd
  have hqlen : q.length = l.length - nT := by rw [hq.length_eq, hBlen]
  have hnVval : nV = nTestOf 1 4 (l.length - nT) := by rw [hnVdef, hBlen]
  have hnV_le : nV ≤ l.length - nT := by rw [hnVval]; unfold nTestOf; omega
  have hnd_app2 : (q.take nV ++ q.drop nV).Nodup := by
    rw [List.take_append_drop]; exact hqnd
  have hdisj2 : List.Disjoint (q.take nV) (q.drop nV) := (List.nodup_append.mp hnd_app2).2.2
  have hval_len : (q.take nV).length = nV := by
    rw [List.length_take, hqlen]; omega
  have htrain_len : (q.drop nV).length = l.length - nT - nV := by
    rw [List.length_drop, hqlen]
  have hdroptake : (q.drop nV ++ q.take nV).Perm q :=
    List.perm_append_comm.trans (List.Perm.of_eq (List.take_append_drop _ _))
  have htrain_sub : q.drop nV ⊆ B := fun x hx => hq.subset (List.drop_subset _ _ hx)
  have hval_sub : q.take nV ⊆ B := fun x hx => hq.subset (List.take_subset _ _ hx)
  have hBdisj_test : List.Disjoint B (p.take nT) := hdisj1.symm
  refine ⟨?_, ?_, ?_, ?_, ?_, ?_, ?_, ?_⟩
  · have s1 : ((q.drop nV ++ q.take nV) ++ p.take nT).Perm (q ++ p.take nT) :=
      List.Perm.append_right _ hdroptake
    have s2 : (q ++ p.take nT).Perm (B ++ p.take nT) := List.Perm.append_right _ hq
    have s3 : (B ++ p.take nT).Perm (p.take nT ++ B) := List.perm_append_comm
    have s4 : (p.take nT ++ B).Perm p := by
      rw [hBdef, List.take_append_drop]
    exact (((s1.trans s2).trans s3).trans s4).trans hp
  · exact hdisj2.symm
  · exact List.disjoint_of_subset_left htrain_sub hBdisj_test
  · exact List.disjoint_of_subset_left hval_sub hBdisj_test
  · exact htest_len
  · rw [hval_len, hnVval]
  · rw [htrain_len, hnVval]
  · rw [htrain_len, hval_len, htest_len]; omega

/-- C1: for any seeded shuffle that permutes its input and any table with
distinct rows, the two-stage split produces pairwise disjoint train, validation
and test partitions whose concatenation is a permutation of the table; the test
fold has `ceil(n/5)` rows (20%), the validation fold `ceil((n - ceil(n/5))/4)`
rows (25% of the remainder), the train fold the rest, and the three sizes sum
to `n` (60/20/20). -/
theorem c1_split_partition {ρ : Type} (sh : List ρ → List ρ) (l : List ρ)
    (hsh : ∀ xs : List ρ, (sh xs).Perm xs) (hnd : l.Nodup) :
    ((splitPipeline sh l).1 ++ (splitPipeline sh l).2.1
        ++ (splitPipeline sh l).2.2).Perm l
    ∧ List.Disjoint (splitPipeline sh l).1 (splitPipeline sh l).2.1
    ∧ List.Disjoint (splitPipeline sh l).1 (splitPipeline sh l).2.2
    ∧ List.Disjoint (splitPipeline sh l).2.1 (splitPipeline sh l).2.2
    ∧ (splitPipeline sh l).2.2.length = nTestOf 1 5 l.length
    ∧ (splitPipeline sh l).2.1.length
        = nTestOf 1 4 (l.length - nTestOf 1 5 l.length)
    ∧ (splitPipeline sh l).1.length
        = l.length - nTestOf 1 5 l.length
          - nTestOf 1 4 (l.length - nTestOf 1 5 l.length)
    ∧ (splitPipeline sh l).1.length + (splitPipeline sh l).2.1.length
        + (splitPipeline sh l).2.2.length = l.length :=
  splitPipeline_spec sh l hsh hnd

theorem c1_split_partition_witness :
    ((splitPipeline (fun xs : List Nat => xs.reverse) [0, 1, 2, 3, 4]).1
        ++ (splitPipeline (fun xs : List Nat => xs.reverse) [0, 1, 2, 3, 4]).2.1
        ++ (splitPipeline (fun xs : List Nat => xs.reverse) [0, 1, 2, 3, 4]).2.2).Perm
      [0, 1, 2, 3, 4]
    ∧ List.Disjoint (splitPipeline (fun xs : List Nat => xs.reverse) [0, 1, 2, 3, 4]).1
        (splitPipeline (fun xs : List Nat => xs.reverse) [0, 1, 2, 3, 4]).2.1
    ∧ List.Disjoint (splitPipeline (fun xs : List Nat => xs.reverse) [0, 1, 2, 3, 4]).1
        (splitPipeline (fun xs : List Nat => xs.reverse) [0, 1, 2, 3, 4]).2.2
    ∧ List.Disjoint (splitPipeline (fun xs : List Nat => xs.reverse) [0, 1, 2, 3, 4]).2.1
        (splitPipeline (fun xs : List Nat => xs.reverse) [0, 1, 2, 3, 4]).2.2
    ∧ (splitPipeline (fun xs : List Nat => xs.reverse) [0, 1, 2, 3, 4]).2.2.length
        = nTestOf 1 5 ([0, 1, 2, 3, 4] : List Nat).length
    ∧ (splitPipeline (fun xs : List Nat => xs.reverse) [0, 1, 2, 3, 4]).2.1.length
        = nTestOf 1 4 (([0, 1, 2, 3, 4] : List Nat).length
            - nTestOf 1 5 ([0, 1, 2, 3, 4] : List Nat).length)
    ∧ (splitPipeline (fun xs : List Nat => xs.reverse) [0, 1, 2, 3, 4]).1.length
        = ([0, 1, 2, 3, 4] : List Nat).length
          - nTestOf 1 5 ([0, 1, 2, 3, 4] : List Nat).length
          - nTestOf 1 4 (([0, 1, 2, 3, 4] : List Nat).length
              - nTestOf 1 5 ([0, 1, 2, 3, 4] : List Nat).length)
    ∧ (splitPipeline (fun xs : List Nat => xs.reverse) [0, 1, 2, 3, 4]).1.length
        + (splitPipeline (fun xs : List Nat => xs.reverse) [0, 1, 2, 3, 4]).2.1.length
        + (splitPipeline (fun xs : List Nat => xs.reverse) [0, 1, 2, 3, 4]).2.2.length
        = ([0, 1, 2, 3, 4] : List Nat).length :=
  c1_split_partition (fun xs : List Nat => xs.reverse) [0, 1, 2, 3, 4]
    (fun xs => List.reverse_perm xs) (by decide)

/-- C8: the split is a two-run equality — with the same fixed seed and the same
library implementation (modelled as extensionally equal shuffle functions), the
two-stage split of the same table produces identical train, validation and test
partitions. -/
theorem c8_split_deterministic {ρ : Type} (sh1 sh2 : List ρ → List ρ) (l : List ρ)
    (h : ∀ xs, sh1 xs = sh2 xs) :
    splitPipeline sh1 l = splitPipeline sh2 l := by
  rw [funext h]

theorem c8_split_deterministic_witness :
    splitPipeline (fun xs : List Nat => xs.reverse) [0, 1, 2]
      = splitPipeline (fun xs : List Nat => xs.reverse) [0, 1, 2] :=
  c8_split_deterministic _ _ _ (fun _ => rfl)

/-! ### The shared `data_obj` in `create_jsonl_data` -/

theorem dlookup_rowInsert (q : String) (r : Dict String JVal) :
    ∀ o : Dict String JVal, dlookup q (rowInsert o r)
      = match rlast q r with
        | some v => some v
        | none => dlookup q o := by
  induction r with
  | nil => intro o; simp [rowInsert, rlast]
  | cons kv rest ih =>
    intro o
    have hfold : rowInsert o (kv :: rest) = rowInsert (dinsert kv.1 kv.2 o) rest := rfl
    rw [hfold, ih]
    cases hr : rlast q rest with
    | some v => simp [rlast, hr]
    | none =>
      simp only [rlast, hr, dlookup_dinsert]
      by_cases hq : kv.1 = q
      · simp [hq]
      · simp [hq]

theorem rlast_none_of_not_mem (q : String) (r : Dict String JVal)
    (h : q ∉ dkeys r) : rlast q r = none := by
  induction r with
  | nil => rfl
  | cons kv rest ih =>
    have h2 : q ∉ dkeys rest := fun hh =>
      h (by rw [dkeys_cons]; exact List.mem_cons_of_mem _ hh)
    have hne : ¬ kv.1 = q := fun hh =>
      h (by rw [dkeys_cons, hh]; exact List.mem_cons_self _ _)
    simp [rlast, ih h2, hne]

theorem rlast_of_nodup (q : String) (r : Dict String JVal)
    (hnd : (dkeys r).Nodup) : rlast q r = dlookup q r := by
  induction r with
  | nil => rfl
  | cons kv rest ih =>
    rw [dkeys_cons, List.nodup_cons] at hnd
    by_cases hq : kv.1 = q
    · have hnm : q ∉ dkeys rest := by rw [← hq]; exact hnd.1
      simp [rlast, dlookup, rlast_none_of_not_mem q rest hnm, hq]
    · simp only [rlast, dlookup, ih hnd.2, if_neg hq]
      cases hd : dlookup q rest with
      | some v => simp
      | none => simp [hq]

theorem lastVal_append (q : String) (xs ys : List (Nat × Dict String JVal)) :
    lastVal q (xs ++ ys)
      = match lastVal q ys with
        | some v => some v
        | none => lastVal q xs := by
  induction xs with
  | nil =>
    cases h : lastVal q ys with
    | some v => simp [h]
    | none => simp [h, lastVal]
  | cons e xs ih =>
    rw [List.cons_append]
    simp only [lastVal, ih]
    cases h1 : lastVal q ys with
    | some v => rfl
    | none => rfl

theorem lastVal_none_of_all (q : String) (jd : List (Nat × Dict String JVal))
    (h : ∀ e ∈ jd, rlast q e.2 = none) : lastVal q jd = none := by
  induction jd with
  | nil => rfl
  | cons e rest ih =>
    simp only [lastVal, ih (fun x hx => h x (List.mem_cons_of_mem _ hx))]
    exact h e (List.mem_cons_self _ _)

theorem lastVal_isSome_iff (q : String) (jd : List (Nat × Dict String JVal)) :
    (lastVal q jd).isSome ↔ ∃ e ∈ jd, (rlast q e.2).isSome := by
  induction jd with
  | nil => simp [lastVal]
  | cons e rest ih =>
    simp only [lastVal]
    cases h1 : lastVal q rest with
    | some v =>
      simp only [Option.isSome_some, true_iff]
      obtain ⟨e', he', hs⟩ := ih.mp (by rw [h1]; rfl)
      exact ⟨e', List.mem_cons_of_mem _ he', hs⟩
    | none =>
      constructor
      · intro hs
        exact ⟨e, List.mem_cons_self _ _, hs⟩
      · intro ⟨e', he', hs⟩
        rcases List.mem_cons.mp he' with he' | he'
        · rw [← he']; exact hs
        · exact absurd (ih.mpr ⟨e', he', hs⟩) (by rw [h1]; simp)

theorem jsonlLoop_length (jd : List (Nat × Dict String JVal)) :
    ∀ o : Dict String JVal, (jsonlLoop o jd).length = jd.length := by
  induction jd with
  | nil => intro o; rfl
  | cons e rest ih => intro o; simp only [jsonlLoop, List.length_cons, ih]

theorem jsonlLoop_lookup (q : String) (hq : q ≠ "id")
    (jd : List (Nat × Dict String JVal)) :
    ∀ (o : Dict String JVal) (b : Nat) (lb : Dict String JVal),
      (jsonlLoop o jd).get? b = some lb →
      dlookup q lb
        = match lastVal q (jd.take (b + 1)) with
          | some v => some v
          | none => dlookup q o := by
  induction jd with
  | nil => intro o b lb h; simp [jsonlLoop] at h
  | cons e rest ih =>
    intro o b lb h
    have hqid : ¬ ("id" : String) = q := fun hh => hq hh.symm
    cases b with
    | zero =>
      simp only [jsonlLoop, List.get?_cons_zero, Option.some.injEq] at h
      rw [← h, dlookup_rowInsert]
      simp only [List.take_succ_cons, List.take_zero]
      cases hr : rlast q e.2 with
      | some v => simp [lastVal, hr]
      | none =>
        simp [lastVal, hr, dlookup_dinsert, hqid]
    | succ b =>
      simp only [jsonlLoop, List.get?_cons_succ] at h
      rw [ih _ b lb h]
      simp only [List.take_succ_cons]
      rw [show (e :: rest.take (b + 1)) = [e] ++ rest.take (b + 1) from rfl,
        lastVal_append]
      cases h1 : lastVal q (rest.take (b + 1)) with
      | some v => rfl
      | none =>
        simp only
        rw [dlookup_rowInsert]
        cases hr : rlast q e.2 with
        | some v => simp [lastVal, hr]
        | none => simp [lastVal, hr, dlookup_dinsert, hqid]

theorem jsonlLoop_id_isSome (jd : List (Nat × Dict String JVal)) :
    ∀ (o : Dict String JVal) (b : Nat) (lb : Dict String JVal),
      (jsonlLoop o jd).get? b = some lb → (dlookup "id" lb).isSome := by
  induction jd with
  | nil => intro o b lb h; simp [jsonlLoop] at h
  | cons e rest ih =>
    intro o b lb h
    cases b with
    | zero =>
      simp only [jsonlLoop, List.get?_cons_zero, Option.some.injEq] at h
      rw [← h, dlookup_rowInsert]
      cases hr : rlast "id" e.2 with
      | some v => simp
      | none => simp [dlookup_dinsert]
    | succ b =>
      simp only [jsonlLoop, List.get?_cons_succ] at h
      exact ih _ b lb h

theorem jsonlLoop_map_id (jd : List (Nat × Dict String JVal))
    (hid : ∀ e ∈ jd, rlast "id" e.2 = none) :
    ∀ o : Dict String JVal,
      (jsonlLoop o jd).map (dlookup "id")
        = jd.map (fun e => some (JVal.nat e.1)) := by
  induction jd with
  | nil => intro o; rfl
  | cons e rest ih =>
    intro o
    simp only [jsonlLoop, List.map_cons]
    have h1 : dlookup "id" (rowInsert (dinsert "id" (JVal.nat e.1) o) e.2)
        = some (JVal.nat e.1) := by
      rw [dlookup_rowInsert, hid e (List.mem_cons_self _ _)]
      simp [dlookup_dinsert]
    rw [h1, ih (fun x hx => hid x (List.mem_cons_of_mem _ hx)) _]

theorem mem_take_get? {T : Type} (xs : List T) :
    ∀ (n : Nat) (e : T), e ∈ xs.take n → ∃ i, i < n ∧ xs.get? i = some e := by
  induction xs with
  | nil => intro n e h; simp at h
  | cons x xs ih =>
    intro n e h
    cases n with
    | zero => simp at h
    | succ n =>
      rw [List.take_succ_cons] at h
      rcases List.mem_cons.mp h with h | h
      · exact ⟨0, Nat.succ_pos n, by rw [h]; rfl⟩
      · obtain ⟨i, hi, hg⟩ := ih n e h
        exact ⟨i + 1, Nat.succ_lt_succ hi, by simpa using hg⟩

theorem take_decomp {T : Type} (jd : List T) (a b : Nat) (ea : T)
    (hab : a < b) (ha : jd.get? a = some ea) :
    jd.take (b + 1) = jd.take a ++ ea :: (jd.drop (a + 1)).take (b - a) := by
  obtain ⟨hlt, hget⟩ := List.get?_eq_some.mp ha
  have hdropa : jd.drop a = ea :: jd.drop (a + 1) := by
    rw [List.drop_eq_get_cons hlt, hget]
  have h1 : jd.take (b + 1) = jd.take a ++ (jd.drop a).take (b + 1 - a) := by
    have he : b + 1 = a + (b + 1 - a) := by omega
    conv_lhs => rw [he]
    rw [List.take_add]
  have h2 : (jd.drop a).take (b + 1 - a) = ea :: (jd.drop (a + 1)).take (b - a) := by
    rw [hdropa]
    have he : b + 1 - a = (b - a) + 1 := by omega
    rw [he, List.take_succ_cons]
  rw [h1, h2]

/-- C10: `create_jsonl_data` creates `data_obj` once and never resets it, so
fields leak forward: if row `a` sets field `k` and no row strictly between `a`
and `b` (inclusive of `b`) writes `k`, then the line emitted for row `b` still
carries `k` with row `a`'s value; and a field of the line for row `b` is
present exactly when it is `id` or some row up to `b` wrote it. -/
theorem c10_stale_fields (jd : List (Nat × Dict String JVal)) (a b : Nat)
    (k : String) (v : JVal) (ea : Nat × Dict String JVal)
    (hab : a < b)
    (ha : jd.get? a = some ea)
    (hb : b < jd.length)
    (hk : k ≠ "id")
    (hv : dlookup k ea.2 = some v)
    (hnd : (dkeys ea.2).Nodup)
    (hmid : ∀ c ec, a < c → c ≤ b → jd.get? c = some ec → rlast k ec.2 = none) :
    ((create_jsonl_data jd).get? b).bind (dlookup k) = some v
    ∧ ∀ lb q, (create_jsonl_data jd).get? b = some lb →
        ((dlookup q lb).isSome
          ↔ (q = "id" ∨ ∃ e ∈ jd.take (b + 1), (rlast q e.2).isSome)) := by
  have hlineslen : (create_jsonl_data jd).length = jd.length := jsonlLoop_length jd []
  have hblt : b < (create_jsonl_data jd).length := by rw [hlineslen]; exact hb
  obtain ⟨lb, hlb⟩ : ∃ lb, (create_jsonl_data jd).get? b = some lb :=
    ⟨_, List.get?_eq_get hblt⟩
  have hdecomp := take_decomp jd a b ea hab ha
  have hmid_none : lastVal k ((jd.drop (a + 1)).take (b - a)) = none := by
    apply lastVal_none_of_all
    intro e he
    obtain ⟨i, hi, hg⟩ := mem_take_get? _ _ _ he
    have hg2 : jd.get? (a + 1 + i) = some e := by
      rw [← List.get?_drop]; exact hg
    exact hmid (a + 1 + i) e (by omega) (by omega) hg2
  have hlast : lastVal k (jd.take (b + 1)) = some v := by
    rw [hdecomp, lastVal_append]
    have h3 : lastVal k (ea :: (jd.drop (a + 1)).take (b - a)) = some v := by
      rw [show (ea :: (jd.drop (a + 1)).take (b - a))
          = [ea] ++ (jd.drop (a + 1)).take (b - a) from rfl,
        lastVal_append, hmid_none]
      simp only [lastVal]
      rw [rlast_of_nodup k ea.2 hnd, hv]
    rw [h3]
  have hmain : dlookup k lb = some v := by
    rw [jsonlLoop_lookup k hk jd [] b lb hlb, hlast]
  constructor
  · rw [hlb]
    simpa using hmain
  · intro lb' q hlb'
    have heq : lb' = lb := by
      rw [hlb] at hlb'
      exact (Option.some.inj hlb').symm
    subst heq
    by_cases hqid : q = "id"
    · subst hqid
      exact iff_of_true (jsonlLoop_id_isSome jd [] b lb' hlb) (Or.inl rfl)
    · have hiff : (dlookup q lb').isSome ↔ (lastVal q (jd.take (b + 1))).isSome := by
        rw [jsonlLoop_lookup q hqid jd [] b lb' hlb]
        cases h1 : lastVal q (jd.take (b + 1)) with
        | some v' => simp
        | none => simp [dlookup]
      rw [hiff, lastVal_isSome_iff]
      constructor
      · intro h2
        exact Or.inr h2
      · intro h2
        rcases h2 with h2 | h2
        · exact absurd h2 hqid
        · exact h2

theorem c10_stale_fields_witness :
    ((create_jsonl_data [(0, [("a", JVal.nat 7)]), (1, [])]).get? 1).bind (dlookup "a")
      = some (JVal.nat 7) :=
  (c10_stale_fields [(0, [("a", JVal.nat 7)]), (1, [])] 0 1 "a" (JVal.nat 7)
    (0, [("a", JVal.nat 7)]) (by decide) rfl (by decide) (by decide) rfl (by decide)
    (by
      intro c ec h1 h2 h3
      have hc : c = 1 := by omega
      subst hc
      rw [show (([(0, [("a", JVal.nat 7)]), (1, [])] :
          List (Nat × Dict String JVal)).get? 1) = some (1, []) from rfl] at h3
      cases h3
      rfl)).1

/-- C7: in the record-sequence exports of the three partitions of one table,
each line's `id` field is the row's original positional index in the table (the
dataframe index that `to_json(orient="index")` serializes), not a per-partition
counter: over the three partitions together the emitted `id` values are exactly
a permutation of `0, ..., |T| - 1`. -/
theorem c7_jsonl_ids
    (sh : List (Nat × Dict String JVal) → List (Nat × Dict String JVal))
    (rows : List (Dict String JVal))
    (hsh : ∀ xs, (sh xs).Perm xs)
    (hid : ∀ r ∈ rows, dlookup "id" r = none) :
    ((create_jsonl_data (splitPipeline sh rows.enum).1).map (dlookup "id")
      ++ (create_jsonl_data (splitPipeline sh rows.enum).2.1).map (dlookup "id")
      ++ (create_jsonl_data (splitPipeline sh rows.enum).2.2).map (dlookup "id")).Perm
      ((List.range rows.length).map (fun i => some (JVal.nat i))) := by
  have hnd : rows.enum.Nodup :=
    List.Nodup.of_map Prod.fst (by rw [List.enum_map_fst]; exact List.nodup_range _)
  have hperm := (splitPipeline_spec sh rows.enum hsh hnd).1
  have hsub : ∀ e ∈ ((splitPipeline sh rows.enum).1 ++ (splitPipeline sh rows.enum).2.1
      ++ (splitPipeline sh rows.enum).2.2), rlast "id" e.2 = none := by
    intro e he
    have he2 : e ∈ rows.enum := hperm.subset he
    have hrow : e.2 ∈ rows := List.get?_mem (List.mem_enum_iff_get?.mp he2)
    exact rlast_none_of_not_mem _ _ ((dlookup_eq_none_iff _ _).mp (hid e.2 hrow))
  have h1 : ∀ e ∈ (splitPipeline sh rows.enum).1, rlast "id" e.2 = none :=
    fun e he => hsub e (by simp [he])
  have h2 : ∀ e ∈ (splitPipeline sh rows.enum).2.1, rlast "id" e.2 = none :=
    fun e he => hsub e (by simp [he])
  have h3 : ∀ e ∈ (splitPipeline sh rows.enum).2.2, rlast "id" e.2 = none :=
    fun e he => hsub e (by simp [he])
  rw [create_jsonl_data, create_jsonl_data, create_jsonl_data,
    jsonlLoop_map_id _ h1, jsonlLoop_map_id _ h2, jsonlLoop_map_id _ h3,
    ← List.map_append, ← List.map_append]
  refine (hperm.map (fun e => some (JVal.nat e.1))).trans ?_
  rw [show (fun (e : Nat × Dict String JVal) => some (JVal.nat e.1))
      = (fun i => some (JVal.nat i)) ∘ Prod.fst from rfl,
    ← List.map_map, List.enum_map_fst]

theorem c7_jsonl_ids_witness :
    ((create_jsonl_data (splitPipeline
          (fun xs : List (Nat × Dict String JVal) => xs.reverse)
          ([[("x", JVal.str "p")], []] : List (Dict String JVal)).enum).1).map (dlookup "id")
      ++ (create_jsonl_data (splitPipeline
          (fun xs : List (Nat × Dict String JVal) => xs.reverse)
          ([[("x", JVal.str "p")], []] : List (Dict String JVal)).enum).2.1).map (dlookup "id")
      ++ (create_jsonl_data (splitPipeline
          (fun xs : List (Nat × Dict String JVal) => xs.reverse)
          ([[("x", JVal.str "p")], []] : List (Dict String JVal)).enum).2.2).map (dlookup "id")).Perm
      ((List.range ([[("x", JVal.str "p")], []] : List (Dict String JVal)).length).map
        (fun i => some (JVal.nat i))) :=
  c7_jsonl_ids _ _ (fun xs => List.reverse_perm xs) (by decide)
